import Mathlib

/-!
Verification development for the diff and comparison engine of the
npmx.dev repository (src/shared/utils/diff.ts and the server compare
utilities).  JavaScript strings are modelled as lists of characters,
ratios as rationals, counters as naturals (integers where a subtraction
can go negative), and absent JavaScript values as Option.
-/

set_option autoImplicit false

/-- JavaScript strings are modelled as lists of characters. -/
abbrev Str := List Char

/-- Options for parsing diffs (diff.ts, lines 11-16).  The JS number
fields are naturals except the ratio, an exact rational. -/
structure ParseOptions where
  maxDiffDistance : ℕ
  maxChangeRatio : ℚ
  mergeModifiedLines : Bool
  inlineMaxCharEdits : ℕ
deriving DecidableEq

/-- defaultOptions (diff.ts, lines 18-23). -/
def defaultOptions : ParseOptions :=
  { maxDiffDistance := 30
    maxChangeRatio := 45 / 100
    mergeModifiedLines := true
    inlineMaxCharEdits := 2 }

/-- Kind tag of a diff line segment (the type field of DiffLineSegment). -/
inductive SegKind where
  | insert
  | delete
  | normal
deriving DecidableEq

/-- DiffLineSegment: a tagged span of text inside one diff line. -/
structure DiffLineSegment where
  value : Str
  type : SegKind
deriving DecidableEq

/-- Model of calculateChangeRatio (src/shared/utils/diff.ts, lines 34-44).
JS string indexing a[i] (a character, or undefined past the end) is
modelled by List.get?, and Math.abs of the length difference by
Int.natAbs.  The result is the exact rational the JS float approximates. -/
def calculateChangeRatio (a b : Str) : ℚ :=
  let totalChars := a.length + b.length
  if totalChars = 0 then 1
  else
    let maxLen := max a.length b.length
    let changedChars :=
      ((List.range maxLen).countP (fun i => a.get? i != b.get? i))
        + ((a.length : ℤ) - (b.length : ℤ)).natAbs
    (changedChars : ℚ) / (totalChars : ℚ)

/-- Model of isSimilarEnough (diff.ts, lines 46-50). -/
def isSimilarEnough (a b : Str) (maxChangeRatio : ℚ) : Bool :=
  if maxChangeRatio ≤ 0 then a == b
  else if 1 ≤ maxChangeRatio then true
  else decide (calculateChangeRatio a b ≤ maxChangeRatio)

/-- The whitespace class of the JS regular expression \s, for the
purposes of content.split; the exact class does not matter to any
property proved here. -/
def jsIsSpace (c : Char) : Bool :=
  c == ' ' || c == '\t' || c == '\n' || c == '\r' || c == '\x0b' || c == '\x0c'

theorem length_dropWhile_le {α : Type} (p : α → Bool) :
    ∀ l : List α, (l.dropWhile p).length ≤ l.length := by
  intro l
  induction l with
  | nil => simp [List.dropWhile]
  | cons x xs ih =>
    rw [List.dropWhile]
    cases p x <;> simp <;> omega

theorem dropWhile_head_not {α : Type} (p : α → Bool) :
    ∀ (l : List α) (x : α) (xs : List α), List.dropWhile p l = x :: xs → p x = false := by
  intro l
  induction l with
  | nil => intro x xs h; cases h
  | cons y ys ih =>
    intro x xs h
    rw [List.dropWhile] at h
    cases hy : p y with
    | true => rw [hy] at h; exact ih x xs h
    | false => rw [hy] at h; cases h; exact hy

/-- Model of content.split(/(\s+)/) (diff.ts, lines 57-58): split at
maximal whitespace runs, keeping the runs themselves as tokens, with
possibly empty non-whitespace pieces at the boundaries (as the JS split
with a capturing group produces). -/
def splitWS (l : Str) : List Str :=
  if hr : l.dropWhile (fun c => !jsIsSpace c) = [] then
    [l.takeWhile (fun c => !jsIsSpace c)]
  else
    l.takeWhile (fun c => !jsIsSpace c) ::
      (l.dropWhile (fun c => !jsIsSpace c)).takeWhile jsIsSpace ::
      splitWS ((l.dropWhile (fun c => !jsIsSpace c)).dropWhile jsIsSpace)
termination_by l.length
decreasing_by
  obtain ⟨c, t, h⟩ := List.exists_cons_of_ne_nil hr
  have hc : (fun c => !jsIsSpace c) c = false := dropWhile_head_not _ l c t h
  have hlen : (c :: t).length ≤ l.length := by
    rw [← h]; exact length_dropWhile_le _ l
  have hc2 : jsIsSpace c = true := by
    simpa using hc
  have heq : (l.dropWhile (fun c => !jsIsSpace c)).dropWhile jsIsSpace
      = t.dropWhile jsIsSpace := by
    rw [h, List.dropWhile, hc2]
  rw [heq]
  have := length_dropWhile_le jsIsSpace t
  simp only [List.length_cons] at hlen
  omega

/-- Splitting loses no characters: the tokens concatenate back to the
input. -/
theorem flatten_splitWS (l : Str) : (splitWS l).flatten = l := by
  induction l using splitWS.induct with
  | case1 l h =>
    rw [splitWS, dif_pos h]
    have := List.takeWhile_append_dropWhile (fun c => !jsIsSpace c) l
    rw [h, List.append_nil] at this
    simpa using this
  | case2 l h ih =>
    rw [splitWS, dif_neg h]
    simp only [List.flatten_cons]
    rw [ih, List.takeWhile_append_dropWhile jsIsSpace,
      List.takeWhile_append_dropWhile]

/-- The push of a normal segment inside the main loop of
buildInlineDiffSegments (diff.ts, lines 74-80): extend the last emitted
segment when it is normal, else push a fresh one.  The accumulator holds
the emitted segments in reverse order. -/
def pushNormalSeg (acc : List DiffLineSegment) (w : Str) : List DiffLineSegment :=
  match acc with
  | s :: rest =>
      if s.type = SegKind.normal then
        { value := s.value ++ w, type := SegKind.normal } :: rest
      else
        { value := w, type := SegKind.normal } :: s :: rest
  | [] => [{ value := w, type := SegKind.normal }]

/-- The bounded lookahead of buildInlineDiffSegments (diff.ts, lines
86-93 and 96-103): the first offset look in 1, 2, 3 such that
ws[look] = target, where ws is the unconsumed token list (ws[0] being
the current token). -/
def lookSync (target : Str) (ws : List Str) : Option ℕ :=
  if ws.get? 1 = some target then some 1
  else if ws.get? 2 = some target then some 2
  else if ws.get? 3 = some target then some 3
  else none

/-- lookSync only ever answers an offset in 1, 2, 3: the arms of alignGo
matching some 0 are unreachable. -/
theorem lookSync_pos {target : Str} {ws : List Str} {k : ℕ}
    (h : lookSync target ws = some k) : 1 ≤ k := by
  unfold lookSync at h
  split at h
  · cases h; omega
  · split at h
    · cases h; omega
    · split at h
      · cases h; omega
      · cases h

/-- The main loop of buildInlineDiffSegments (diff.ts, lines 64-113):
oldWs and newWs are the unconsumed word tokens, acc the emitted
segments in reverse order.  A successful lookahead is matched as
some (k + 1) for termination; by lookSync_pos the fall-through at
some 0 never happens. -/
def alignGo (oldWs newWs : List Str) (acc : List DiffLineSegment) : List DiffLineSegment :=
  match oldWs, newWs with
  | [], [] => acc.reverse
  | [], ws => ({ value := ws.flatten, type := SegKind.insert } :: acc).reverse
  | ws, [] => ({ value := ws.flatten, type := SegKind.delete } :: acc).reverse
  | o :: os, n :: ns =>
    if o = n then
      alignGo os ns (pushNormalSeg acc o)
    else
      match lookSync o (n :: ns) with
      | some (k + 1) =>
          alignGo (o :: os) ((n :: ns).drop (k + 1))
            ({ value := ((n :: ns).take (k + 1)).flatten, type := SegKind.insert } :: acc)
      | _ =>
          match lookSync n (o :: os) with
          | some (j + 1) =>
              alignGo ((o :: os).drop (j + 1)) (n :: ns)
                ({ value := ((o :: os).take (j + 1)).flatten, type := SegKind.delete } :: acc)
          | _ =>
              alignGo os ns
                ({ value := n, type := SegKind.insert } ::
                  { value := o, type := SegKind.delete } :: acc)
termination_by oldWs.length + newWs.length
decreasing_by
  · simp; omega
  · simp [List.length_drop]; omega
  · simp [List.length_drop]; omega
  · simp; omega

/-- The final coalescing pass of buildInlineDiffSegments (diff.ts,
lines 115-123): merge adjacent segments of equal kind. -/
def mergeSegs : List DiffLineSegment → List DiffLineSegment
  | [] => []
  | [s] => [s]
  | s :: t :: rest =>
    if s.type = t.type then
      mergeSegs ({ value := s.value ++ t.value, type := s.type } :: rest)
    else
      s :: mergeSegs (t :: rest)
termination_by l => l.length

/-- Model of buildInlineDiffSegments (diff.ts, lines 52-126). -/
def buildInlineDiffSegments (oldContent newContent : Str) (_options : ParseOptions) : List DiffLineSegment :=
  mergeSegs (alignGo (splitWS oldContent) (splitWS newContent) [])

/-- The old side of a segment list: concatenation of the text of the
delete and normal segments, in order. -/
def oldSideText (segs : List DiffLineSegment) : Str :=
  ((segs.filter (fun s => s.type != SegKind.insert)).map (fun s => s.value)).flatten

/-- The new side of a segment list: concatenation of the text of the
insert and normal segments, in order. -/
def newSideText (segs : List DiffLineSegment) : Str :=
  ((segs.filter (fun s => s.type != SegKind.delete)).map (fun s => s.value)).flatten

theorem oldSideText_append (l₁ l₂ : List DiffLineSegment) :
    oldSideText (l₁ ++ l₂) = oldSideText l₁ ++ oldSideText l₂ := by
  simp [oldSideText, List.filter_append]

theorem newSideText_append (l₁ l₂ : List DiffLineSegment) :
    newSideText (l₁ ++ l₂) = newSideText l₁ ++ newSideText l₂ := by
  simp [newSideText, List.filter_append]

theorem sides_pushNormalSeg (acc : List DiffLineSegment) (w : Str) :
    oldSideText (pushNormalSeg acc w).reverse = oldSideText acc.reverse ++ w ∧
    newSideText (pushNormalSeg acc w).reverse = newSideText acc.reverse ++ w := by
  match acc with
  | [] => simp [pushNormalSeg, oldSideText, newSideText]
  | s :: rest =>
    by_cases hs : s.type = SegKind.normal
    · simp [pushNormalSeg, hs, List.reverse_cons, oldSideText_append,
        newSideText_append, oldSideText, newSideText, List.append_assoc]
    · obtain ⟨v, ty⟩ := s
      simp only [] at hs
      cases ty
      · simp [pushNormalSeg, List.reverse_cons, oldSideText_append,
          newSideText_append, oldSideText, newSideText, List.append_assoc]
      · simp [pushNormalSeg, List.reverse_cons, oldSideText_append,
          newSideText_append, oldSideText, newSideText, List.append_assoc]
      · exact absurd rfl hs

theorem flatten_take_drop (k : ℕ) (l : List Str) :
    (l.take k).flatten ++ (l.drop k).flatten = l.flatten := by
  rw [← List.flatten_append, List.take_append_drop]

theorem alignGo_sides : ∀ (os ns : List Str) (acc : List DiffLineSegment),
    oldSideText (alignGo os ns acc) = oldSideText acc.reverse ++ os.flatten ∧
    newSideText (alignGo os ns acc) = newSideText acc.reverse ++ ns.flatten := by
  intro os ns acc
  induction os, ns, acc using alignGo.induct
  case case1 acc =>
    simp [alignGo]
  case case2 acc ws hne =>
    obtain ⟨c, t, rfl⟩ := List.exists_cons_of_ne_nil (fun hh => hne hh)
    simp [alignGo, List.reverse_cons, oldSideText_append, newSideText_append,
      oldSideText, newSideText]
  case case3 acc ws hne hne2 =>
    obtain ⟨c, t, rfl⟩ := List.exists_cons_of_ne_nil (fun hh => hne hh)
    simp [alignGo, List.reverse_cons, oldSideText_append, newSideText_append,
      oldSideText, newSideText]
  case case4 acc os n ns ih =>
    obtain ⟨ih1, ih2⟩ := ih
    obtain ⟨p1, p2⟩ := sides_pushNormalSeg acc n
    rw [alignGo.eq_4, if_pos rfl]
    rw [ih1, ih2, p1, p2]
    simp [List.append_assoc]
  case case5 acc o os n ns h j heq ih =>
    obtain ⟨ih1, ih2⟩ := ih
    rw [alignGo.eq_4, if_neg h, heq]
    dsimp only
    rw [ih1, ih2]
    simp [List.reverse_cons, oldSideText_append, newSideText_append,
      oldSideText, newSideText, List.append_assoc, flatten_take_drop]
  case case6 acc o os n ns h j heq hnone ih =>
    obtain ⟨ih1, ih2⟩ := ih
    rw [alignGo.eq_4, if_neg h]
    have hred : (match lookSync o (n :: ns) with
        | some (Nat.succ k) =>
          alignGo (o :: os) (List.drop (k + 1) (n :: ns))
            ({ value := (List.take (k + 1) (n :: ns)).flatten, type := SegKind.insert } :: acc)
        | _ =>
          match lookSync n (o :: os) with
          | some (Nat.succ j) =>
            alignGo (List.drop (j + 1) (o :: os)) (n :: ns)
              ({ value := (List.take (j + 1) (o :: os)).flatten, type := SegKind.delete } :: acc)
          | _ =>
            alignGo os ns ({ value := n, type := SegKind.insert } ::
              { value := o, type := SegKind.delete } :: acc)) =
        alignGo (List.drop (j + 1) (o :: os)) (n :: ns)
          ({ value := (List.take (j + 1) (o :: os)).flatten, type := SegKind.delete } :: acc) := by
      rcases hx : lookSync o (n :: ns) with _ | k
      · rw [heq]
      · rcases k with _ | k
        · rw [heq]
        · exact absurd hx (by intro hc; exact hnone k hc)
    rw [hred, ih1, ih2]
    simp [List.reverse_cons, oldSideText_append, newSideText_append,
      oldSideText, newSideText, List.append_assoc, flatten_take_drop]
  case case7 acc o os n ns h hnone1 hnone2 ih =>
    obtain ⟨ih1, ih2⟩ := ih
    rw [alignGo.eq_4, if_neg h]
    have hred : (match lookSync o (n :: ns) with
        | some (Nat.succ k) =>
          alignGo (o :: os) (List.drop (k + 1) (n :: ns))
            ({ value := (List.take (k + 1) (n :: ns)).flatten, type := SegKind.insert } :: acc)
        | _ =>
          match lookSync n (o :: os) with
          | some (Nat.succ j) =>
            alignGo (List.drop (j + 1) (o :: os)) (n :: ns)
              ({ value := (List.take (j + 1) (o :: os)).flatten, type := SegKind.delete } :: acc)
          | _ =>
            alignGo os ns ({ value := n, type := SegKind.insert } ::
              { value := o, type := SegKind.delete } :: acc)) =
        alignGo os ns ({ value := n, type := SegKind.insert } ::
          { value := o, type := SegKind.delete } :: acc) := by
      rcases hx : lookSync o (n :: ns) with _ | k
      · rcases hy : lookSync n (o :: os) with _ | m
        · rfl
        · rcases m with _ | m
          · rfl
          · exact absurd hy (by intro hc; exact hnone2 m hc)
      · rcases k with _ | k
        · rcases hy : lookSync n (o :: os) with _ | m
          · rfl
          · rcases m with _ | m
            · rfl
            · exact absurd hy (by intro hc; exact hnone2 m hc)
        · exact absurd hx (by intro hc; exact hnone1 k hc)
    rw [hred, ih1, ih2]
    simp [List.reverse_cons, oldSideText_append, newSideText_append,
      oldSideText, newSideText, List.append_assoc]

theorem oldSideText_cons (s : DiffLineSegment) (l : List DiffLineSegment) :
    oldSideText (s :: l)
      = (if s.type = SegKind.insert then [] else s.value) ++ oldSideText l := by
  by_cases hs : s.type = SegKind.insert <;> simp [oldSideText, hs]

theorem newSideText_cons (s : DiffLineSegment) (l : List DiffLineSegment) :
    newSideText (s :: l)
      = (if s.type = SegKind.delete then [] else s.value) ++ newSideText l := by
  by_cases hs : s.type = SegKind.delete <;> simp [newSideText, hs]

/-- Coalescing adjacent equal-kind segments changes neither side's
reconstructed text. -/
theorem sides_mergeSegs (l : List DiffLineSegment) :
    oldSideText (mergeSegs l) = oldSideText l ∧
    newSideText (mergeSegs l) = newSideText l := by
  induction l using mergeSegs.induct
  case case1 => simp [mergeSegs]
  case case2 s => simp [mergeSegs]
  case case3 s t rest htype ih =>
    rw [mergeSegs, if_pos htype]
    obtain ⟨ih1, ih2⟩ := ih
    rw [ih1, ih2]
    simp only [oldSideText_cons, newSideText_cons, htype, List.append_assoc]
    constructor
    · by_cases hi : t.type = SegKind.insert <;> simp [hi]
    · by_cases hd : t.type = SegKind.delete <;> simp [hd]
  case case4 s t rest htype ih =>
    rw [mergeSegs, if_neg htype]
    obtain ⟨ih1, ih2⟩ := ih
    simp only [oldSideText_cons, newSideText_cons, ih1, ih2]
    exact ⟨trivial, trivial⟩

/-- Kind tag of a raw change and of a processed diff line (the type
fields of RawChange and DiffLine). -/
inductive LineKind where
  | insert
  | delete
  | normal
deriving DecidableEq

/-- RawChange (diff.ts, lines 25-32): one raw line of a hunk as the
parser records it; absent JS fields are none. -/
structure RawChange where
  type : LineKind
  content : Str
  lineNumber : Option ℕ
  oldLineNumber : Option ℕ
  newLineNumber : Option ℕ
  isNormal : Option Bool
deriving DecidableEq

/-- DiffLine: a finalized line made of inline segments. -/
structure DiffLine where
  type : LineKind
  oldLineNumber : Option ℕ
  newLineNumber : Option ℕ
  lineNumber : Option ℕ
  content : List DiffLineSegment
deriving DecidableEq

/-- Model of changeToLine (diff.ts, lines 128-136). -/
def changeToLine (change : RawChange) : DiffLine :=
  { type := change.type
    oldLineNumber := change.oldLineNumber
    newLineNumber := change.newLineNumber
    lineNumber := change.lineNumber
    content := [{ value := change.content, type := SegKind.normal }] }

/-- Model of mergeAdjacentLines (diff.ts, lines 138-164).  The indexed
loop with its skip of the consumed partner (i++) is the left-to-right
recursion below. -/
def mergeAdjacentLines (changes : List RawChange) (options : ParseOptions) : List DiffLine :=
  match changes with
  | [] => []
  | [current] => [changeToLine current]
  | current :: next :: rest2 =>
    if current.type = LineKind.delete ∧ next.type = LineKind.insert ∧
        isSimilarEnough current.content next.content options.maxChangeRatio = true then
      { type := LineKind.normal
        oldLineNumber := current.lineNumber
        newLineNumber := next.lineNumber
        lineNumber := none
        content := buildInlineDiffSegments current.content next.content options } ::
        mergeAdjacentLines rest2 options
    else
      changeToLine current :: mergeAdjacentLines (next :: rest2) options

/-- A raw hunk as accumulated by the parser before processing
(diff.ts, lines 175-182 and 298-306). -/
structure RawHunk where
  changes : List RawChange
  oldStart : ℕ
  oldLines : ℕ
  newStart : ℕ
  newLines : ℕ
  content : Str
deriving DecidableEq

/-- DiffHunk: a processed hunk (its TS discriminant type: 'hunk' is
carried by the DiffBlock sum below). -/
structure DiffHunk where
  content : Str
  oldStart : ℕ
  oldLines : ℕ
  newStart : ℕ
  newLines : ℕ
  lines : List DiffLine
deriving DecidableEq

/-- Model of processHunk (diff.ts, lines 298-322). -/
def processHunk (raw : RawHunk) (options : ParseOptions) : DiffHunk :=
  { content := raw.content
    oldStart := raw.oldStart
    oldLines := raw.oldLines
    newStart := raw.newStart
    newLines := raw.newLines
    lines :=
      if options.mergeModifiedLines then mergeAdjacentLines raw.changes options
      else raw.changes.map changeToLine }

/-- C1: for every pair of strings, the inline word aligner's segments
round-trip both sides: the delete and normal segments concatenate to the
old text, the insert and normal segments concatenate to the new text;
and an unmerged line (changeToLine) has a single normal segment whose
text is the raw line text. -/
theorem C1_inline_aligner_round_trip :
    ∀ (oldText newText : Str) (opts : ParseOptions),
      (oldSideText (buildInlineDiffSegments oldText newText opts) = oldText ∧
       newSideText (buildInlineDiffSegments oldText newText opts) = newText) ∧
      ∀ ch : RawChange,
        (changeToLine ch).content = [{ value := ch.content, type := SegKind.normal }] := by
  intro oldText newText opts
  refine ⟨⟨?_, ?_⟩, fun ch => rfl⟩
  · rw [buildInlineDiffSegments, (sides_mergeSegs _).1,
      (alignGo_sides _ _ _).1, flatten_splitWS]
    simp [oldSideText]
  · rw [buildInlineDiffSegments, (sides_mergeSegs _).2,
      (alignGo_sides _ _ _).2, flatten_splitWS]
    simp [newSideText]

/-- C2: when mergeModifiedLines is enabled, a delete immediately
followed by an insert that is similar enough is replaced by exactly one
normal-kind line whose oldLineNumber is the delete's lineNumber, whose
newLineNumber is the insert's lineNumber and whose segments are the
inline aligner's output, consuming both raw changes; a pair that does
not merge emits the first change as its own single-segment line, and a
final lone change or the empty list behave likewise. -/
theorem C2_hunk_processor_merges_similar_pairs :
    ∀ (opts : ParseOptions) (d ins : RawChange) (rest : List RawChange) (raw : RawHunk),
      opts.mergeModifiedLines = true →
      d.type = LineKind.delete →
      ins.type = LineKind.insert →
      isSimilarEnough d.content ins.content opts.maxChangeRatio = true →
      raw.changes = d :: ins :: rest →
      ((processHunk raw opts).lines =
        { type := LineKind.normal
          oldLineNumber := d.lineNumber
          newLineNumber := ins.lineNumber
          lineNumber := none
          content := buildInlineDiffSegments d.content ins.content opts } ::
          mergeAdjacentLines rest opts) ∧
      (∀ (c₁ c₂ : RawChange) (rest' : List RawChange),
        ¬ (c₁.type = LineKind.delete ∧ c₂.type = LineKind.insert ∧
            isSimilarEnough c₁.content c₂.content opts.maxChangeRatio = true) →
        mergeAdjacentLines (c₁ :: c₂ :: rest') opts
          = changeToLine c₁ :: mergeAdjacentLines (c₂ :: rest') opts) ∧
      (∀ c : RawChange, mergeAdjacentLines [c] opts = [changeToLine c]) ∧
      mergeAdjacentLines [] opts = [] ∧
      (∀ c : RawChange,
        (changeToLine c).content = [{ value := c.content, type := SegKind.normal }]) := by
  intro opts d ins rest raw hm hd hi hsim hch
  refine ⟨?_, ?_, fun c => by rw [mergeAdjacentLines], by rw [mergeAdjacentLines],
    fun c => rfl⟩
  · rw [processHunk]
    simp only [hm, if_true, hch]
    rw [mergeAdjacentLines]
    rw [if_pos ⟨hd, hi, hsim⟩]
  · intro c₁ c₂ rest' hno
    rw [mergeAdjacentLines, if_neg hno]

/-- Witness for C2 at a concrete hunk: deleting the line abc and
inserting abd (ratio 1/6, below the default threshold 0.45) merges. -/
theorem C2_witness :
    (processHunk
      { changes :=
          [{ type := LineKind.delete, content := ['a', 'b', 'c'], lineNumber := some 1,
             oldLineNumber := some 1, newLineNumber := none, isNormal := none },
           { type := LineKind.insert, content := ['a', 'b', 'd'], lineNumber := some 1,
             oldLineNumber := none, newLineNumber := some 1, isNormal := none }]
        oldStart := 1, oldLines := 1, newStart := 1, newLines := 1, content := [] }
      defaultOptions).lines =
      { type := LineKind.normal
        oldLineNumber := some 1
        newLineNumber := some 1
        lineNumber := none
        content := buildInlineDiffSegments (['a', 'b', 'c']) (['a', 'b', 'd'])
          defaultOptions } ::
        mergeAdjacentLines [] defaultOptions := by
  have hr : calculateChangeRatio (['a', 'b', 'c']) (['a', 'b', 'd'])
      = ((1 : ℕ) : ℚ) / ((6 : ℕ) : ℚ) := rfl
  have hsim : isSimilarEnough (['a', 'b', 'c']) (['a', 'b', 'd'])
      defaultOptions.maxChangeRatio = true := by
    unfold isSimilarEnough
    rw [show defaultOptions.maxChangeRatio = 45 / 100 from rfl]
    rw [if_neg (by norm_num), if_neg (by norm_num), hr]
    simp only [decide_eq_true_eq]
    norm_num
  exact (C2_hunk_processor_merges_similar_pairs defaultOptions
    { type := LineKind.delete, content := ['a', 'b', 'c'], lineNumber := some 1,
      oldLineNumber := some 1, newLineNumber := none, isNormal := none }
    { type := LineKind.insert, content := ['a', 'b', 'd'], lineNumber := some 1,
      oldLineNumber := none, newLineNumber := some 1, isNormal := none }
    []
    { changes :=
        [{ type := LineKind.delete, content := ['a', 'b', 'c'], lineNumber := some 1,
           oldLineNumber := some 1, newLineNumber := none, isNormal := none },
         { type := LineKind.insert, content := ['a', 'b', 'd'], lineNumber := some 1,
           oldLineNumber := none, newLineNumber := some 1, isNormal := none }]
      oldStart := 1, oldLines := 1, newStart := 1, newLines := 1, content := [] }
    rfl rfl rfl hsim rfl).1

/-- C3 counterexample: the similarity score is not a ratio in [0, 1]:
for the empty string against the one-character string x the code
counts the past-the-end position as a mismatch and then adds the length
difference again, giving 2. -/
theorem C3_counterexample_score_exceeds_one :
    calculateChangeRatio [] (['x']) = 2 ∧ ¬ calculateChangeRatio [] (['x']) ≤ 1 := by
  have h : calculateChangeRatio [] (['x']) = ((2 : ℕ) : ℚ) / ((1 : ℕ) : ℚ) := rfl
  rw [h]
  norm_num

/-- C3 amended: the score is a nonnegative rational bounded by 2 (not
by 1): position-wise mismatches never exceed the longer length, the
length difference never exceeds the longer length, and the longer
length never exceeds the sum of lengths. -/
theorem C3_amended_score_in_zero_two (a b : Str) :
    0 ≤ calculateChangeRatio a b ∧ calculateChangeRatio a b ≤ 2 := by
  unfold calculateChangeRatio
  by_cases h : a.length + b.length = 0
  · simp [h]
  · simp only [h, if_false]
    have hden : (0 : ℚ) < ((a.length + b.length : ℕ) : ℚ) := by
      exact_mod_cast Nat.pos_of_ne_zero h
    have hcount : ((List.range (max a.length b.length)).countP
        (fun i => a.get? i != b.get? i)) ≤ max a.length b.length := by
      calc ((List.range (max a.length b.length)).countP
          (fun i => a.get? i != b.get? i))
        ≤ (List.range (max a.length b.length)).length := List.countP_le_length _
        _ = max a.length b.length := List.length_range _
    have habs : ((a.length : ℤ) - (b.length : ℤ)).natAbs ≤ max a.length b.length := by
      omega
    have hnum : ((List.range (max a.length b.length)).countP
          (fun i => a.get? i != b.get? i))
        + ((a.length : ℤ) - (b.length : ℤ)).natAbs ≤ 2 * (a.length + b.length) := by
      omega
    constructor
    · apply div_nonneg
      · exact_mod_cast Nat.zero_le _
      · exact_mod_cast Nat.zero_le _
    · rw [div_le_iff₀ hden]
      calc (((List.range (max a.length b.length)).countP
            (fun i => a.get? i != b.get? i)
            + ((a.length : ℤ) - (b.length : ℤ)).natAbs : ℕ) : ℚ)
          ≤ ((2 * (a.length + b.length) : ℕ) : ℚ) := by exact_mod_cast hnum
        _ = 2 * ((a.length + b.length : ℕ) : ℚ) := by push_cast; ring

/-- File kind of a FileDiff. -/
inductive FileKind where
  | add
  | delete
  | modify
deriving DecidableEq

/-- FileDiff: one file entry of the parsed diff.  In the parser all
entries of hunks are real hunks; skip blocks only appear after
insertSkipBlocks, which is modelled separately on the DiffBlock sum. -/
structure FileDiff where
  oldPath : Str
  newPath : Str
  type : FileKind
  hunks : List DiffHunk
deriving DecidableEq

/-- The loop state of parseUnifiedDiff (diff.ts, lines 171-184). -/
structure PState where
  files : List FileDiff
  currentFile : Option FileDiff
  currentHunk : Option RawHunk
  oldLine : ℕ
  newLine : ℕ
deriving DecidableEq

/-- JS diffText.split of the newline character (diff.ts, line 173):
the empty string splits to one empty piece. -/
def splitNl : Str → List Str
  | [] => [[]]
  | c :: rest =>
    if c = '\n' then [] :: splitNl rest
    else
      match splitNl rest with
      | r :: rs => (c :: r) :: rs
      | [] => [[c]]

/-- Strip a literal prefix, or fail. -/
def stripPref (p l : Str) : Option Str :=
  if p.isPrefixOf l then some (l.drop p.length) else none

/-- parseInt base 10 on a digit string. -/
def digitsToNat (ds : Str) : ℕ :=
  ds.foldl (fun n c => 10 * n + (c.toNat - ('0').toNat)) 0

/-- The optional comma-length group of the hunk-header pattern:
consume a comma followed by at least one digit, else consume nothing
(the regex group is skipped, and the following literal then fails on
the unconsumed comma, exactly as backtracking behaves). -/
def tryCommaDigits (l : Str) : Option Str × Str :=
  match l with
  | ',' :: r =>
    match r.takeWhile Char.isDigit with
    | [] => (none, l)
    | d => (some d, r.dropWhile Char.isDigit)
  | _ => (none, l)

/-- Model of matching the anchored hunk-header regular expression of
diff.ts line 218, with the length defaults of lines 231-233 applied:
some (oldStart, oldLines, newStart, newLines) on a match.  The trailer
group matches any remainder and is only used as part of the raw line. -/
def parseHunkHeader (line : Str) : Option (ℕ × ℕ × ℕ × ℕ) :=
  match stripPref ("@@ -".toList) line with
  | none => none
  | some r1 =>
    match r1.takeWhile Char.isDigit with
    | [] => none
    | d1 =>
      let (oldLen, r3) := tryCommaDigits (r1.dropWhile Char.isDigit)
      match stripPref (" +".toList) r3 with
      | none => none
      | some r4 =>
        match r4.takeWhile Char.isDigit with
        | [] => none
        | d3 =>
          let (newLen, r6) := tryCommaDigits (r4.dropWhile Char.isDigit)
          match stripPref (" @@".toList) r6 with
          | none => none
          | some _ =>
            some (digitsToNat d1, (oldLen.map digitsToNat).getD 1,
              digitsToNat d3, (newLen.map digitsToNat).getD 1)

/-- The path extraction of the +++ branch (diff.ts, lines 197-198):
the regular expression matches +++ followed by a space, strips an
optional b/ prefix (and only b/), and a failed match defaults to the
empty path. -/
def plusPathOf (line : Str) : Str :=
  match stripPref ("+++ ".toList) line with
  | some rest =>
    match stripPref ("b/".toList) rest with
    | some p => p
    | none => rest
  | none => []

/-- One iteration of the line loop of parseUnifiedDiff (diff.ts,
lines 186-272), with the branches in source order. -/
def stepLine (opts : ParseOptions) (st : PState) (line : Str) : PState :=
  if ("---".toList).isPrefixOf line then
    match st.currentHunk, st.currentFile with
    | some h, some f =>
      { st with
          currentFile := some { f with hunks := f.hunks ++ [processHunk h opts] }
          currentHunk := none }
    | _, _ => { st with currentHunk := none }
  else if ("+++".toList).isPrefixOf line then
    let path := plusPathOf line
    let st1 :=
      match st.currentFile, st.currentHunk with
      | some f, some h =>
        { st with
            files := st.files ++ [{ f with hunks := f.hunks ++ [processHunk h opts] }] }
      | some f, none => { st with files := st.files ++ [f] }
      | none, _ => st
    { st1 with
        currentFile := some
          { oldPath := path, newPath := path, type := FileKind.modify, hunks := [] }
        currentHunk := none }
  else
    match parseHunkHeader line with
    | some (os, ol, nst, nl) =>
      let st1 :=
        match st.currentHunk, st.currentFile with
        | some h, some f =>
          { st with
              currentFile := some { f with hunks := f.hunks ++ [processHunk h opts] } }
        | _, _ => st
      { st1 with
          oldLine := os
          newLine := nst
          currentHunk := some
            { changes := [], oldStart := os, oldLines := ol,
              newStart := nst, newLines := nl, content := line } }
    | none =>
      if ("diff ".toList).isPrefixOf line ∨ ("index ".toList).isPrefixOf line ∨
          ("\\".toList).isPrefixOf line then st
      else
        match st.currentHunk with
        | none => st
        | some h =>
          if ("+".toList).isPrefixOf line then
            { st with
                currentHunk := some { h with changes := h.changes ++
                  [{ type := LineKind.insert, content := line.drop 1,
                     lineNumber := some st.newLine, oldLineNumber := none,
                     newLineNumber := some st.newLine, isNormal := none }] }
                newLine := st.newLine + 1 }
          else if ("-".toList).isPrefixOf line then
            { st with
                currentHunk := some { h with changes := h.changes ++
                  [{ type := LineKind.delete, content := line.drop 1,
                     lineNumber := some st.oldLine, oldLineNumber := some st.oldLine,
                     newLineNumber := none, isNormal := none }] }
                oldLine := st.oldLine + 1 }
          else if (" ".toList).isPrefixOf line ∨ line = [] then
            { st with
                currentHunk := some { h with changes := h.changes ++
                  [{ type := LineKind.normal, content := line.drop 1,
                     lineNumber := none, oldLineNumber := some st.oldLine,
                     newLineNumber := some st.newLine, isNormal := some true }] }
                oldLine := st.oldLine + 1
                newLine := st.newLine + 1 }
          else st

/-- The post-pass of parseUnifiedDiff (diff.ts, lines 282-293): derive
the file kind from the union of line kinds present.  The TS check
h.type === hunk is always true here since parsed files hold hunks
only. -/
def classifyFile (file : FileDiff) : FileDiff :=
  let hasAdds := file.hunks.any (fun h => h.lines.any (fun l => l.type == LineKind.insert))
  let hasDels := file.hunks.any (fun h => h.lines.any (fun l => l.type == LineKind.delete))
  if hasAdds ∧ ¬ hasDels = true then { file with type := FileKind.add }
  else if hasDels ∧ ¬ hasAdds = true then { file with type := FileKind.delete }
  else { file with type := FileKind.modify }

/-- Model of parseUnifiedDiff (diff.ts, lines 166-296).  The caller's
partial-option merge over the defaults happens before this function in
the model: it receives the full option record. -/
def parseUnifiedDiff (diffText : Str) (options : ParseOptions) : List FileDiff :=
  let st := (splitNl diffText).foldl (stepLine options)
    { files := [], currentFile := none, currentHunk := none, oldLine := 0, newLine := 0 }
  let st1 :=
    match st.currentHunk, st.currentFile with
    | some h, some f =>
      { st with currentFile := some { f with hunks := f.hunks ++ [processHunk h options] } }
    | _, _ => st
  let files :=
    match st1.currentFile with
    | some f => st1.files ++ [f]
    | none => st1.files
  files.map classifyFile

/-- C4 counterexample: the parser strips only a b/ prefix from +++
lines, never a/: parsing the single line +++ a/foo.js yields a
FileDiff whose oldPath is a/foo.js, not foo.js as the claim requires. -/
theorem C4_counterexample_a_prefix_not_stripped :
    (parseUnifiedDiff ("+++ a/foo.js".toList) defaultOptions).map (fun f => f.oldPath)
      = [("a/foo.js".toList)] ∧
    ("a/foo.js".toList) ≠ ("foo.js".toList) := by
  exact ⟨rfl, by decide⟩

/-- C4 amended: a +++ space rest line opens a FileDiff whose oldPath
and newPath are both rest with an optional b/ prefix (and only b/)
stripped: a b/ prefix is removed, any other rest (an a/ path included)
is kept whole; end to end, +++ b/foo.js yields foo.js twice and
+++ a/foo.js yields a/foo.js twice. -/
theorem C4_amended_plus_path_strips_only_b :
    ∀ (opts : ParseOptions) (st : PState) (rest : Str),
      ((stepLine opts st (("+++ ".toList) ++ rest)).currentFile
        = some { oldPath := plusPathOf (("+++ ".toList) ++ rest)
                 newPath := plusPathOf (("+++ ".toList) ++ rest)
                 type := FileKind.modify, hunks := [] }) ∧
      (∀ p : Str, plusPathOf (("+++ b/".toList) ++ p) = p) ∧
      (("b/".toList).isPrefixOf rest = false →
        plusPathOf (("+++ ".toList) ++ rest) = rest) ∧
      ((parseUnifiedDiff ("+++ b/foo.js".toList) opts).map (fun f => (f.oldPath, f.newPath))
        = [(("foo.js".toList), ("foo.js".toList))]) ∧
      ((parseUnifiedDiff ("+++ a/foo.js".toList) opts).map (fun f => (f.oldPath, f.newPath))
        = [(("a/foo.js".toList), ("a/foo.js".toList))]) := by
  intro opts st rest
  refine ⟨rfl, fun p => ?_, fun hb => ?_, rfl, rfl⟩
  · show plusPathOf ('+' :: '+' :: '+' :: ' ' :: 'b' :: '/' :: p) = p
    rw [plusPathOf]
    refine ?_
    have h1 : stripPref (("+++ ".toList)) ('+' :: '+' :: '+' :: ' ' :: 'b' :: '/' :: p)
        = some ('b' :: '/' :: p) := rfl
    rw [h1]
    have hc : (("b/".toList)).isPrefixOf ('b' :: '/' :: p) = true := by
      show (['b', '/']).isPrefixOf ('b' :: '/' :: p) = true
      simp [List.isPrefixOf_cons₂, List.isPrefixOf_nil_left]
    have h2 : stripPref (("b/".toList)) ('b' :: '/' :: p) = some p := by
      rw [stripPref, if_pos hc]
      rfl
    simp only [h1, h2]
  · show plusPathOf ('+' :: '+' :: '+' :: ' ' :: rest) = rest
    rw [plusPathOf]
    have hc : (("+++ ".toList)).isPrefixOf ('+' :: '+' :: '+' :: ' ' :: rest) = true := by
      show (['+', '+', '+', ' ']).isPrefixOf ('+' :: '+' :: '+' :: ' ' :: rest) = true
      simp [List.isPrefixOf_cons₂, List.isPrefixOf_nil_left]
    have h4 : stripPref (("+++ ".toList)) ('+' :: '+' :: '+' :: ' ' :: rest) = some rest := by
      rw [stripPref, if_pos hc]
      rfl
    have h5 : stripPref (("b/".toList)) rest = none := by
      rw [stripPref, hb]
      rfl
    simp only [h4, h5]

/-- DiffSkipBlock: the collapsed-gap marker between distant hunks.  The
count is an integer since the JS subtraction producing it can go
negative (such a value is never emitted). -/
structure DiffSkipBlock where
  count : ℤ
  content : Str
deriving DecidableEq

/-- An entry of the mixed hunk list: the TS union DiffHunk or
DiffSkipBlock, discriminated in TS by the type field. -/
inductive DiffBlock where
  | hunk (h : DiffHunk)
  | skip (s : DiffSkipBlock)
deriving DecidableEq

/-- The loop of insertSkipBlocks (diff.ts, lines 324-344) with the
running lastHunkLine cursor explicit; the skip message renders the
count in decimal as the JS template literal does. -/
def insertSkipBlocksGo (lastHunkLine : ℤ) : List DiffHunk → List DiffBlock
  | [] => []
  | hunk :: hs =>
    (if 0 < (hunk.oldStart : ℤ) - lastHunkLine then
      [DiffBlock.skip
        { count := (hunk.oldStart : ℤ) - lastHunkLine
          content := Nat.toDigits 10 ((hunk.oldStart : ℤ) - lastHunkLine).toNat
            ++ (" lines hidden".toList) }]
     else []) ++
      DiffBlock.hunk hunk ::
        insertSkipBlocksGo (max ((hunk.oldStart : ℤ) + (hunk.oldLines : ℤ)) lastHunkLine) hs

/-- Model of insertSkipBlocks (diff.ts, lines 324-344): the cursor
starts at 1. -/
def insertSkipBlocks (hunks : List DiffHunk) : List DiffBlock :=
  insertSkipBlocksGo 1 hunks

theorem insertSkipBlocksGo_skip_pos :
    ∀ (l : List DiffHunk) (cursor : ℤ) (s : DiffSkipBlock),
      DiffBlock.skip s ∈ insertSkipBlocksGo cursor l → 0 < s.count := by
  intro l
  induction l with
  | nil =>
    intro cursor s hmem
    simp [insertSkipBlocksGo] at hmem
  | cons hd tl ih =>
    intro cursor s hmem
    rw [insertSkipBlocksGo] at hmem
    by_cases hpos : (0 : ℤ) < (hd.oldStart : ℤ) - cursor
    · rw [if_pos hpos] at hmem
      simp only [List.singleton_append, List.mem_cons] at hmem
      rcases hmem with h1 | h2 | h3
      · cases h1
        exact hpos
      · cases h2
      · exact ih _ s h3
    · rw [if_neg hpos] at hmem
      simp only [List.nil_append, List.mem_cons] at hmem
      rcases hmem with h1 | h2
      · cases h1
      · exact ih _ s h2

theorem getLast?_append_ne_nil {α : Type} :
    ∀ (l₁ l₂ : List α), l₂ ≠ [] → (l₁ ++ l₂).getLast? = l₂.getLast? := by
  intro l₁
  induction l₁ with
  | nil => intro l₂ h; rfl
  | cons x xs ih =>
    intro l₂ h
    rw [List.cons_append]
    have hne : xs ++ l₂ ≠ [] := by
      intro hc
      rw [List.append_eq_nil] at hc
      exact h hc.2
    obtain ⟨y, ys, hy⟩ := List.exists_cons_of_ne_nil hne
    rw [hy, List.getLast?_cons_cons, ← hy, ih l₂ h]

theorem insertSkipBlocksGo_getLast_hunk :
    ∀ (l : List DiffHunk) (cursor : ℤ) (s : DiffSkipBlock),
      (insertSkipBlocksGo cursor l).getLast? ≠ some (DiffBlock.skip s) := by
  intro l
  induction l with
  | nil =>
    intro cursor s h
    simp [insertSkipBlocksGo] at h
  | cons hd tl ih =>
    intro cursor s h
    rw [insertSkipBlocksGo,
      getLast?_append_ne_nil _ _ (by intro hc; cases hc)] at h
    rcases htl : insertSkipBlocksGo
        (max ((hd.oldStart : ℤ) + (hd.oldLines : ℤ)) cursor) tl with _ | ⟨b, bs⟩
    · rw [htl] at h
      cases h
    · rw [htl, List.getLast?_cons_cons, ← htl] at h
      exact ih _ s h

/-- C5: the skip-block inserter starts its cursor at 1, emits before a
hunk a skip block of count oldStart minus cursor exactly when that
difference is positive (so no emitted skip block ever has count ≤ 0),
updates the cursor to max(oldStart + oldLines, cursor), emits no
trailing skip block, and a single hunk starting at old line 50 is
preceded by a skip block of count 49. -/
theorem C5_skip_block_inserter :
    (∀ (hunks : List DiffHunk) (s : DiffSkipBlock),
      DiffBlock.skip s ∈ insertSkipBlocks hunks → 0 < s.count) ∧
    (∀ (hunks : List DiffHunk) (s : DiffSkipBlock),
      (insertSkipBlocks hunks).getLast? ≠ some (DiffBlock.skip s)) ∧
    (∀ (cursor : ℤ) (h : DiffHunk) (hs : List DiffHunk),
      (cursor < (h.oldStart : ℤ) →
        insertSkipBlocksGo cursor (h :: hs)
          = DiffBlock.skip
              { count := (h.oldStart : ℤ) - cursor
                content := Nat.toDigits 10 ((h.oldStart : ℤ) - cursor).toNat
                  ++ (" lines hidden".toList) } ::
            DiffBlock.hunk h ::
            insertSkipBlocksGo (max ((h.oldStart : ℤ) + (h.oldLines : ℤ)) cursor) hs) ∧
      ((h.oldStart : ℤ) ≤ cursor →
        insertSkipBlocksGo cursor (h :: hs)
          = DiffBlock.hunk h ::
            insertSkipBlocksGo (max ((h.oldStart : ℤ) + (h.oldLines : ℤ)) cursor) hs)) ∧
    (∀ h : DiffHunk, h.oldStart = 50 →
      insertSkipBlocks [h]
        = [DiffBlock.skip { count := 49, content := ("49 lines hidden".toList) },
           DiffBlock.hunk h]) := by
  refine ⟨fun hunks s hm => insertSkipBlocksGo_skip_pos hunks 1 s hm,
    fun hunks s => insertSkipBlocksGo_getLast_hunk hunks 1 s,
    fun cursor h hs => ⟨fun hlt => ?_, fun hle => ?_⟩,
    fun h h50 => ?_⟩
  · rw [insertSkipBlocksGo, if_pos (by omega)]
    rfl
  · rw [insertSkipBlocksGo, if_neg (by omega)]
    rfl
  · rw [insertSkipBlocks, insertSkipBlocksGo, if_pos (by rw [h50]; norm_num)]
    rw [insertSkipBlocksGo]
    rw [h50]
    rfl

/-- Model of countDiffStats (diff.ts, lines 366-383): additions then
deletions. -/
def countDiffStats (hunks : List DiffBlock) : ℕ × ℕ :=
  hunks.foldl (fun acc b =>
    match b with
    | DiffBlock.hunk h =>
        h.lines.foldl (fun acc2 line =>
          if line.type = LineKind.insert then (acc2.1 + 1, acc2.2)
          else if line.type = LineKind.delete then (acc2.1, acc2.2 + 1)
          else acc2) acc
    | DiffBlock.skip _ => acc) (0, 0)

theorem countDiffStats_lineFold :
    ∀ (lines : List DiffLine) (a d : ℕ),
      lines.foldl (fun acc2 line =>
          if line.type = LineKind.insert then (acc2.1 + 1, acc2.2)
          else if line.type = LineKind.delete then (acc2.1, acc2.2 + 1)
          else acc2) (a, d)
        = (a + lines.countP (fun l => l.type == LineKind.insert),
           d + lines.countP (fun l => l.type == LineKind.delete)) := by
  intro lines
  induction lines with
  | nil => intro a d; simp
  | cons line rest ih =>
    intro a d
    rw [List.foldl_cons, List.countP_cons, List.countP_cons]
    rcases hty : line.type
    all_goals simp [hty, ih, Nat.add_comm, Nat.add_assoc, Nat.add_left_comm]

theorem countDiffStats_blockFold :
    ∀ (blocks : List DiffBlock) (a d : ℕ),
      blocks.foldl (fun acc b =>
        match b with
        | DiffBlock.hunk h =>
            h.lines.foldl (fun acc2 line =>
              if line.type = LineKind.insert then (acc2.1 + 1, acc2.2)
              else if line.type = LineKind.delete then (acc2.1, acc2.2 + 1)
              else acc2) acc
        | DiffBlock.skip _ => acc) (a, d)
      = (a + (blocks.map (fun b =>
            match b with
            | DiffBlock.hunk h => h.lines.countP (fun l => l.type == LineKind.insert)
            | DiffBlock.skip _ => 0)).sum,
         d + (blocks.map (fun b =>
            match b with
            | DiffBlock.hunk h => h.lines.countP (fun l => l.type == LineKind.delete)
            | DiffBlock.skip _ => 0)).sum) := by
  intro blocks
  induction blocks with
  | nil => intro a d; simp
  | cons b rest ih =>
    intro a d
    rcases b with h | s
    · rw [List.foldl_cons]
      simp only []
      rw [countDiffStats_lineFold, ih]
      simp [Nat.add_assoc]
    · rw [List.foldl_cons]
      simp only []
      rw [ih]
      simp

/-- Example options differing only in mergeModifiedLines; the ratio 1
threshold declares any delete and insert pair similar. -/
def optsMergeOn : ParseOptions :=
  { maxDiffDistance := 30, maxChangeRatio := 1, mergeModifiedLines := true,
    inlineMaxCharEdits := 2 }

/-- The same options with merging disabled. -/
def optsMergeOff : ParseOptions :=
  { optsMergeOn with mergeModifiedLines := false }

/-- A one-pair example hunk: delete abc, insert abd. -/
def examplePairHunk : RawHunk :=
  { changes :=
      [{ type := LineKind.delete, content := ['a', 'b', 'c'], lineNumber := some 1,
         oldLineNumber := some 1, newLineNumber := none, isNormal := none },
       { type := LineKind.insert, content := ['a', 'b', 'd'], lineNumber := some 1,
         oldLineNumber := none, newLineNumber := some 1, isNormal := none }]
    oldStart := 1, oldLines := 1, newStart := 1, newLines := 1, content := [] }

/-- C9: countDiffStats counts exactly the insert lines as additions and
the delete lines as deletions (skip blocks and all other line kinds
contribute nothing); consequently a delete and insert pair that the
hunk processor merged into one normal line contributes zero to both
counts, so enabling mergeModifiedLines can lower both reported counts
for the same raw changes (here from (1, 1) to (0, 0)). -/
theorem C9_stats_count_only_insert_delete :
    (∀ blocks : List DiffBlock,
      countDiffStats blocks
        = ((blocks.map (fun b =>
              match b with
              | DiffBlock.hunk h => h.lines.countP (fun l => l.type == LineKind.insert)
              | DiffBlock.skip _ => 0)).sum,
           (blocks.map (fun b =>
              match b with
              | DiffBlock.hunk h => h.lines.countP (fun l => l.type == LineKind.delete)
              | DiffBlock.skip _ => 0)).sum)) ∧
    countDiffStats [DiffBlock.hunk (processHunk examplePairHunk optsMergeOn)] = (0, 0) ∧
    countDiffStats [DiffBlock.hunk (processHunk examplePairHunk optsMergeOff)] = (1, 1) := by
  refine ⟨fun blocks => ?_, rfl, rfl⟩
  rw [countDiffStats, countDiffStats_blockFold]
  simp

/-- Node kind of a package file tree node. -/
inductive FKind where
  | file
  | directory
deriving DecidableEq

/-- PackageFileTree (the shared tree type read by the comparator):
path, type, optional size and hash, optional children. -/
inductive PTree where
  | node (path : Str) (type : FKind) (size : Option ℕ) (hash : Option Str)
      (children : Option (List PTree))

def PTree.path : PTree → Str
  | .node p _ _ _ _ => p

def PTree.type : PTree → FKind
  | .node _ t _ _ _ => t

def PTree.size : PTree → Option ℕ
  | .node _ _ s _ _ => s

def PTree.hash : PTree → Option Str
  | .node _ _ _ h _ => h

def PTree.children : PTree → Option (List PTree)
  | .node _ _ _ _ c => c

/-- The JS Map as an insertion-ordered association list: set of an
existing key updates it in place, a new key appends. -/
def mapSet (m : List (Str × PTree)) (k : Str) (v : PTree) : List (Str × PTree) :=
  if m.any (fun e => e.1 == k) then
    m.map (fun e => if e.1 == k then (k, v) else e)
  else m ++ [(k, v)]

/-- Map.get: the value at the key, if present. -/
def mapGet (m : List (Str × PTree)) (k : Str) : Option PTree :=
  (m.find? (fun e => e.1 == k)).map (fun e => e.2)

/-- Map.has. -/
def mapHas (m : List (Str × PTree)) (k : Str) : Bool :=
  m.any (fun e => e.1 == k)

mutual
/-- The traverse of flattenTree (compare utilities, lines 11-18): the
visited nodes in preorder, which is the Map insertion order; a node
with no children field recurses into nothing. -/
def collectOne : PTree → List PTree
  | .node p t s h none => [.node p t s h none]
  | .node p t s h (some cs) => .node p t s h (some cs) :: collectList cs

def collectList : List PTree → List PTree
  | [] => []
  | x :: xs => collectOne x ++ collectList xs
end

/-- Model of flattenTree (compare utilities, lines 8-22). -/
def flattenTree (tree : List PTree) : List (Str × PTree) :=
  (collectList tree).foldl (fun m t => mapSet m t.path t) []

/-- JS truthiness of an optional string field: present and nonempty. -/
def truthyStr : Option Str → Bool
  | some s => !s.isEmpty
  | none => false

/-- The hasChanged rule of compareFileTrees (lines 32-41): compare
hashes when both are truthy, else sizes when both are numbers, else
assume unchanged. -/
def hasChanged (fromNode toNode : PTree) : Bool :=
  if truthyStr fromNode.hash && truthyStr toNode.hash then
    fromNode.hash != toNode.hash
  else
    match fromNode.size, toNode.size with
    | some sf, some st => sf != st
    | _, _ => false

/-- Change kind of a FileChange. -/
inductive ChangeKind where
  | added
  | removed
  | modified
deriving DecidableEq

/-- FileChange: one reported file difference; fields the source does
not set are none. -/
structure FileChange where
  path : Str
  type : ChangeKind
  oldSize : Option ℕ := none
  newSize : Option ℕ := none
deriving DecidableEq

/-- Maximum number of files to include in comparison (line 5). -/
def MAX_FILES_COMPARE : ℕ := 1000

/-- The result record of compareFileTrees, also used as its running
state (the three lists grow by push, truncated is set on cap). -/
structure CmpState where
  added : List FileChange
  removed : List FileChange
  modified : List FileChange
  truncated : Bool
deriving DecidableEq

/-- The running total of the overLimit check (line 47). -/
def CmpState.total (st : CmpState) : ℕ :=
  st.added.length + st.removed.length + st.modified.length

/-- The first loop of compareFileTrees (lines 50-95): added and
modified detection over the to-map entries, cap checked first each
iteration. -/
def comparePhase1 (fromFiles : List (Str × PTree)) :
    List (Str × PTree) → CmpState → CmpState
  | [], st => st
  | (path, toNode) :: rest, st =>
    if MAX_FILES_COMPARE ≤ st.total then { st with truncated := true }
    else
      match toNode.type with
      | FKind.directory =>
        match mapGet fromFiles path with
        | some fromNode =>
          if fromNode.type = FKind.file then
            comparePhase1 fromFiles rest
              { st with removed := st.removed ++
                  [{ path := path, type := ChangeKind.removed, oldSize := fromNode.size }] }
          else comparePhase1 fromFiles rest st
        | none => comparePhase1 fromFiles rest st
      | FKind.file =>
        match mapGet fromFiles path with
        | none =>
          comparePhase1 fromFiles rest
            { st with added := st.added ++
                [{ path := path, type := ChangeKind.added, newSize := toNode.size }] }
        | some fromNode =>
          if fromNode.type = FKind.directory then
            comparePhase1 fromFiles rest
              { st with added := st.added ++
                  [{ path := path, type := ChangeKind.added, newSize := toNode.size }] }
          else if hasChanged fromNode toNode then
            comparePhase1 fromFiles rest
              { st with modified := st.modified ++
                  [{ path := path, type := ChangeKind.modified,
                     oldSize := fromNode.size, newSize := toNode.size }] }
          else comparePhase1 fromFiles rest st

/-- The second loop of compareFileTrees (lines 98-113): removed
detection over the from-map entries; directories are skipped before
the cap check, as in the source. -/
def comparePhase2 (toFiles : List (Str × PTree)) :
    List (Str × PTree) → CmpState → CmpState
  | [], st => st
  | (path, fromNode) :: rest, st =>
    if fromNode.type = FKind.directory then comparePhase2 toFiles rest st
    else if MAX_FILES_COMPARE ≤ st.total then { st with truncated := true }
    else if mapHas toFiles path then comparePhase2 toFiles rest st
    else comparePhase2 toFiles rest
      { st with removed := st.removed ++
          [{ path := path, type := ChangeKind.removed, oldSize := fromNode.size }] }

/-- Byte/code-point lexicographic string order: the stand-in for the JS
a.localeCompare(b) sort key, whose collation is implementation- and
locale-defined; every property proved about its callers here is
independent of the particular total order used. -/
def strLe : Str → Str → Bool
  | [], _ => true
  | _ :: _, [] => false
  | a :: as, b :: bs =>
    if a < b then true
    else if b < a then false
    else strLe as bs

/-- Model of compareFileTrees (compare utilities, lines 25-121); the
final sorts model the stable Array.prototype.sort. -/
def compareFileTrees (fromTree toTree : List PTree) : CmpState :=
  let fromFiles := flattenTree fromTree
  let toFiles := flattenTree toTree
  let st1 := comparePhase1 fromFiles toFiles
    { added := [], removed := [], modified := [], truncated := false }
  let st2 := comparePhase2 toFiles fromFiles st1
  { added := st2.added.mergeSort (fun a b => strLe a.path b.path)
    removed := st2.removed.mergeSort (fun a b => strLe a.path b.path)
    modified := st2.modified.mergeSort (fun a b => strLe a.path b.path)
    truncated := st2.truncated }

theorem comparePhase1_inv :
    ∀ (entries ff : List (Str × PTree)) (st : CmpState),
      st.total ≤ MAX_FILES_COMPARE →
      (st.truncated = true → st.total = MAX_FILES_COMPARE) →
      (comparePhase1 ff entries st).total ≤ MAX_FILES_COMPARE ∧
      ((comparePhase1 ff entries st).truncated = true →
        (comparePhase1 ff entries st).total = MAX_FILES_COMPARE) := by
  intro entries
  induction entries with
  | nil =>
    intro ff st hle htr
    rw [comparePhase1]
    exact ⟨hle, htr⟩
  | cons e rest ih =>
    intro ff st hle htr
    obtain ⟨path, toNode⟩ := e
    rw [comparePhase1]
    by_cases hcap : MAX_FILES_COMPARE ≤ st.total
    · rw [if_pos hcap]
      refine ⟨by simpa [CmpState.total] using hle, fun _ => ?_⟩
      simp only [CmpState.total] at hle hcap ⊢
      omega
    · rw [if_neg hcap]
      have hlt : st.total < MAX_FILES_COMPARE := by omega
      have htrf : st.truncated = false := by
        rcases h : st.truncated
        · rfl
        · have := htr h
          omega
      rcases hty : toNode.type
      · dsimp only
        rcases hget : mapGet ff path with _ | fromNode
        · dsimp only
          exact ih ff
            { st with added := st.added ++
                [{ path := path, type := ChangeKind.added, newSize := toNode.size }] }
            (by simp [CmpState.total] at hlt ⊢; omega)
            (by intro h; rw [htrf] at h; cases h)
        · dsimp only
          by_cases hdir : fromNode.type = FKind.directory
          · rw [if_pos hdir]
            exact ih ff
              { st with added := st.added ++
                  [{ path := path, type := ChangeKind.added, newSize := toNode.size }] }
              (by simp [CmpState.total] at hlt ⊢; omega)
              (by intro h; rw [htrf] at h; cases h)
          · rw [if_neg hdir]
            by_cases hch : hasChanged fromNode toNode = true
            · rw [if_pos hch]
              exact ih ff
                { st with modified := st.modified ++
                    [{ path := path, type := ChangeKind.modified,
                       oldSize := fromNode.size, newSize := toNode.size }] }
                (by simp [CmpState.total] at hlt ⊢; omega)
                (by intro h; rw [htrf] at h; cases h)
            · rw [if_neg hch]
              exact ih ff st (by omega) (by intro h; rw [htrf] at h; cases h)
      · dsimp only
        rcases hget : mapGet ff path with _ | fromNode
        · dsimp only
          exact ih ff st (by omega) (by intro h; rw [htrf] at h; cases h)
        · dsimp only
          by_cases hfile : fromNode.type = FKind.file
          · rw [if_pos hfile]
            exact ih ff
              { st with removed := st.removed ++
                  [{ path := path, type := ChangeKind.removed, oldSize := fromNode.size }] }
              (by simp [CmpState.total] at hlt ⊢; omega)
              (by intro h; rw [htrf] at h; cases h)
          · rw [if_neg hfile]
            exact ih ff st (by omega) (by intro h; rw [htrf] at h; cases h)

theorem comparePhase2_inv :
    ∀ (entries tf : List (Str × PTree)) (st : CmpState),
      st.total ≤ MAX_FILES_COMPARE →
      (st.truncated = true → st.total = MAX_FILES_COMPARE) →
      (comparePhase2 tf entries st).total ≤ MAX_FILES_COMPARE ∧
      ((comparePhase2 tf entries st).truncated = true →
        (comparePhase2 tf entries st).total = MAX_FILES_COMPARE) := by
  intro entries
  induction entries with
  | nil =>
    intro tf st hle htr
    rw [comparePhase2]
    exact ⟨hle, htr⟩
  | cons e rest ih =>
    intro tf st hle htr
    obtain ⟨path, fromNode⟩ := e
    rw [comparePhase2]
    by_cases hdir : fromNode.type = FKind.directory
    · rw [if_pos hdir]
      exact ih tf st hle htr
    · rw [if_neg hdir]
      by_cases hcap : MAX_FILES_COMPARE ≤ st.total
      · rw [if_pos hcap]
        refine ⟨by simpa [CmpState.total] using hle, fun _ => ?_⟩
        simp only [CmpState.total] at hle hcap ⊢
        omega
      · rw [if_neg hcap]
        have hlt : st.total < MAX_FILES_COMPARE := by omega
        have htrf : st.truncated = false := by
          rcases h : st.truncated
          · rfl
          · have := htr h
            omega
        by_cases hhas : mapHas tf path = true
        · rw [if_pos hhas]
          exact ih tf st (by omega) (by intro h; rw [htrf] at h; cases h)
        · rw [if_neg hhas]
          exact ih tf
            { st with removed := st.removed ++
                [{ path := path, type := ChangeKind.removed, oldSize := fromNode.size }] }
            (by simp [CmpState.total] at hlt ⊢; omega)
            (by intro h; rw [htrf] at h; cases h)

/-- C10: the file-tree comparator never reports more than 1000 changes
in total, and whenever it sets truncated the total is exactly 1000. -/
theorem C10_total_capped_and_truncated_exact :
    ∀ (fromTree toTree : List PTree),
      ((compareFileTrees fromTree toTree).added.length +
        (compareFileTrees fromTree toTree).removed.length +
        (compareFileTrees fromTree toTree).modified.length ≤ 1000) ∧
      ((compareFileTrees fromTree toTree).truncated = true →
        (compareFileTrees fromTree toTree).added.length +
          (compareFileTrees fromTree toTree).removed.length +
          (compareFileTrees fromTree toTree).modified.length = 1000) := by
  intro fromTree toTree
  have h1 := comparePhase1_inv (flattenTree toTree) (flattenTree fromTree)
    { added := [], removed := [], modified := [], truncated := false }
    (by simp [CmpState.total, MAX_FILES_COMPARE]) (by intro h; cases h)
  have h2 := comparePhase2_inv (flattenTree fromTree) (flattenTree toTree)
    (comparePhase1 (flattenTree fromTree) (flattenTree toTree)
      { added := [], removed := [], modified := [], truncated := false })
    h1.1 h1.2
  rw [compareFileTrees]
  simp only [List.length_mergeSort]
  simp only [CmpState.total, MAX_FILES_COMPARE] at h2
  exact h2

/-- A flat file node with a fixed size, no hash and no children. -/
def mkFileNode (p : Str) : PTree :=
  PTree.node p FKind.file (some 0) none none

theorem collectList_map_mkFileNode (paths : List Str) :
    collectList (paths.map mkFileNode) = paths.map mkFileNode := by
  induction paths with
  | nil => rfl
  | cons p ps ih =>
    rw [List.map_cons, collectList, ih]
    rfl

theorem foldl_mapSet_fresh :
    ∀ (nodes : List PTree) (m : List (Str × PTree)),
      ((nodes.map PTree.path).Nodup) →
      (∀ t ∈ nodes, mapHas m t.path = false) →
      nodes.foldl (fun m t => mapSet m t.path t) m
        = m ++ nodes.map (fun t => (t.path, t)) := by
  intro nodes
  induction nodes with
  | nil =>
    intro m _ _
    simp
  | cons t ts ih =>
    intro m hnd hfresh
    rw [List.map_cons, List.nodup_cons] at hnd
    rw [List.foldl_cons]
    have hset : mapSet m t.path t = m ++ [(t.path, t)] := by
      rw [mapSet, if_neg]
      rw [show (m.any fun e => e.1 == t.path) = mapHas m t.path from rfl]
      rw [hfresh t (List.mem_cons_self t ts)]
      simp
    rw [hset, ih (m ++ [(t.path, t)]) hnd.2]
    · rw [List.append_assoc]
      rfl
    · intro u hu
      rw [mapHas, List.any_append]
      have h1 : mapHas m u.path = false := hfresh u (List.mem_cons_of_mem t hu)
      rw [mapHas] at h1
      rw [h1]
      have h2 : (t.path == u.path) = false := by
        rw [beq_eq_false_iff_ne]
        intro hc
        exact hnd.1 (hc ▸ List.mem_map_of_mem PTree.path hu)
      simp [h2]

theorem comparePhase1_all_new :
    ∀ (entries : List (Str × PTree)) (st : CmpState),
      (∀ e ∈ entries, (e.2).type = FKind.file) →
      st.total ≤ MAX_FILES_COMPARE →
      MAX_FILES_COMPARE + 1 ≤ st.total + entries.length →
      (comparePhase1 [] entries st).total = MAX_FILES_COMPARE ∧
      (comparePhase1 [] entries st).truncated = true := by
  intro entries
  induction entries with
  | nil =>
    intro st _ hle hbig
    exfalso
    simp only [List.length_nil, Nat.add_zero] at hbig
    omega
  | cons e rest ih =>
    intro st hall hle hbig
    obtain ⟨path, toNode⟩ := e
    rw [comparePhase1]
    by_cases hcap : MAX_FILES_COMPARE ≤ st.total
    · rw [if_pos hcap]
      refine ⟨?_, rfl⟩
      show st.total = MAX_FILES_COMPARE
      omega
    · rw [if_neg hcap]
      have hty : toNode.type = FKind.file := hall (path, toNode) (List.mem_cons_self _ _)
      rw [hty]
      dsimp only
      rw [show mapGet [] path = none from rfl]
      dsimp only
      refine ih _ (fun e he => hall e (List.mem_cons_of_mem _ he)) ?_ ?_
      · simp only [CmpState.total, List.length_append, List.length_cons, List.length_nil]
        simp only [CmpState.total] at hcap
        omega
      · simp only [CmpState.total, List.length_append, List.length_cons, List.length_nil]
        simp only [CmpState.total, List.length_cons] at hbig
        omega

theorem compareFileTrees_proj (ft tt : List PTree) :
    (compareFileTrees ft tt).truncated
      = (comparePhase2 (flattenTree tt) (flattenTree ft)
          (comparePhase1 (flattenTree ft) (flattenTree tt)
            { added := [], removed := [], modified := [], truncated := false })).truncated ∧
    (compareFileTrees ft tt).added.length
      = (comparePhase2 (flattenTree tt) (flattenTree ft)
          (comparePhase1 (flattenTree ft) (flattenTree tt)
            { added := [], removed := [], modified := [], truncated := false })).added.length ∧
    (compareFileTrees ft tt).removed.length
      = (comparePhase2 (flattenTree tt) (flattenTree ft)
          (comparePhase1 (flattenTree ft) (flattenTree tt)
            { added := [], removed := [], modified := [], truncated := false })).removed.length ∧
    (compareFileTrees ft tt).modified.length
      = (comparePhase2 (flattenTree tt) (flattenTree ft)
          (comparePhase1 (flattenTree ft) (flattenTree tt)
            { added := [], removed := [], modified := [], truncated := false })).modified.length := by
  refine ⟨rfl, ?_, ?_, ?_⟩ <;>
    simp [compareFileTrees, List.length_mergeSort]

/-- C6: with an empty from-tree and 1001 flat files with distinct paths
in the to-tree (all of them added files), the comparator reports
exactly 1000 total changes and sets truncated; the capped results are
still returned, not an error. -/
theorem C6_cap_1001_added_files (paths : List Str) (hnd : paths.Nodup)
    (hlen : paths.length = 1001) :
    ((compareFileTrees [] (paths.map mkFileNode)).added.length +
      (compareFileTrees [] (paths.map mkFileNode)).removed.length +
      (compareFileTrees [] (paths.map mkFileNode)).modified.length = 1000) ∧
    (compareFileTrees [] (paths.map mkFileNode)).truncated = true := by
  have hflat_from : flattenTree ([] : List PTree) = [] := rfl
  have hnodup : ((paths.map mkFileNode).map PTree.path).Nodup := by
    have hmm : (paths.map mkFileNode).map PTree.path = paths := by
      rw [List.map_map]
      have hid : PTree.path ∘ mkFileNode = id := funext fun p => rfl
      rw [hid, List.map_id]
    rw [hmm]
    exact hnd
  have hflat_to : flattenTree (paths.map mkFileNode)
      = (paths.map mkFileNode).map (fun t => (t.path, t)) := by
    rw [flattenTree, collectList_map_mkFileNode,
      foldl_mapSet_fresh _ [] hnodup (fun t _ => rfl)]
    rfl
  have hall : ∀ e ∈ (paths.map mkFileNode).map (fun t => (t.path, t)),
      (e.2).type = FKind.file := by
    intro e he
    rw [List.mem_map] at he
    obtain ⟨t, ht, rfl⟩ := he
    rw [List.mem_map] at ht
    obtain ⟨p, _, rfl⟩ := ht
    rfl
  have hlen2 : ((paths.map mkFileNode).map (fun t => (t.path, t))).length = 1001 := by
    simp [hlen]
  have h1 := comparePhase1_all_new ((paths.map mkFileNode).map (fun t => (t.path, t)))
    { added := [], removed := [], modified := [], truncated := false }
    hall
    (by simp [CmpState.total, MAX_FILES_COMPARE])
    (by
      rw [hlen2]
      simp [CmpState.total, MAX_FILES_COMPARE])
  have hph2 : ∀ (tf : List (Str × PTree)) (st : CmpState), comparePhase2 tf [] st = st :=
    fun tf st => by rw [comparePhase2]
  obtain ⟨htr, ha, hr, hm⟩ := compareFileTrees_proj [] (paths.map mkFileNode)
  rw [hflat_from, hflat_to, hph2] at htr ha hr hm
  rw [ha, hr, hm, htr]
  simp only [CmpState.total, MAX_FILES_COMPARE] at h1
  exact ⟨h1.1, h1.2⟩

/-- Witness for C6: 1001 concrete distinct paths (the n-fold
repetitions of the letter a for n below 1001). -/
theorem C6_cap_witness :
    ((compareFileTrees []
        (((List.range 1001).map (fun n => List.replicate n 'a')).map mkFileNode)).added.length +
      (compareFileTrees []
        (((List.range 1001).map (fun n => List.replicate n 'a')).map mkFileNode)).removed.length +
      (compareFileTrees []
        (((List.range 1001).map (fun n => List.replicate n 'a')).map mkFileNode)).modified.length
        = 1000) ∧
    (compareFileTrees []
      (((List.range 1001).map (fun n => List.replicate n 'a')).map mkFileNode)).truncated
      = true :=
  C6_cap_1001_added_files ((List.range 1001).map (fun n => List.replicate n 'a'))
    ((List.nodup_range 1001).map
      (fun m n h => by simpa using congrArg List.length h))
    (by simp)

/-- The dependency sections, in the fixed source order. -/
inductive DepSection where
  | dependencies
  | devDependencies
  | peerDependencies
  | optionalDependencies
deriving DecidableEq

/-- sections.indexOf for the final sort comparator. -/
def sectionIndex : DepSection → ℕ
  | DepSection.dependencies => 0
  | DepSection.devDependencies => 1
  | DepSection.peerDependencies => 2
  | DepSection.optionalDependencies => 3

/-- The release types the external semver library's diff can return. -/
inductive SemverDelta where
  | major
  | premajor
  | minor
  | preminor
  | patch
  | prepatch
  | prerelease
deriving DecidableEq

/-- The semverDiff buckets of a DependencyChange. -/
inductive SemverBucket where
  | major
  | minor
  | patch
  | prerelease
deriving DecidableEq

/-- The change kinds of a DependencyChange. -/
inductive DepKind where
  | added
  | removed
  | updated
deriving DecidableEq

/-- DependencyChange: one reported dependency difference. -/
structure DependencyChange where
  name : Str
  sect : DepSection
  fromV : Option Str
  toV : Option Str
  type : DepKind
  semverDiff : Option SemverBucket
deriving DecidableEq

/-- A parsed package.json as far as the dependency comparator reads
it: the four section records as key-to-version association lists with
unique keys (JS object keys are unique); an absent section or manifest
reads as the empty record, as the JS null coalescing does. -/
structure PkgManifest where
  dependencies : List (Str × Str)
  devDependencies : List (Str × Str)
  peerDependencies : List (Str × Str)
  optionalDependencies : List (Str × Str)

/-- fromPkg section access with the null coalescing of lines 137-138. -/
def sectionOf (pkg : Option PkgManifest) (s : DepSection) : List (Str × Str) :=
  match pkg with
  | none => []
  | some p =>
    match s with
    | DepSection.dependencies => p.dependencies
    | DepSection.devDependencies => p.devDependencies
    | DepSection.peerDependencies => p.peerDependencies
    | DepSection.optionalDependencies => p.optionalDependencies

/-- Strip the leading range-operator run (the replace of lines
158-159). -/
def cleanVersionPref (v : Str) : Str :=
  v.dropWhile (fun c => c == '^' || c == '~' || c == '>' || c == '=' || c == '<')

/-- One iteration of the name loop of compareDependencies (lines
142-185), parameterized by the external semver library's diff
(semverDiffFn returns none for a null result and for a thrown
invalid-semver error, both of which leave the bucket null in the
source): none when the change is skipped, some change when emitted. -/
def depChangeFor (semverDiffFn : Str → Str → Option SemverDelta)
    (sect : DepSection) (fromDeps toDeps : List (Str × Str)) (name : Str) :
    Option DependencyChange :=
  let fromVersion := fromDeps.lookup name
  let toVersion := toDeps.lookup name
  if fromVersion = toVersion then none
  else
    let type :=
      if truthyStr fromVersion = false then DepKind.added
      else if truthyStr toVersion = false then DepKind.removed
      else DepKind.updated
    let semverDiffType :=
      if type = DepKind.updated ∧ truthyStr fromVersion = true ∧
          truthyStr toVersion = true then
        match fromVersion, toVersion with
        | some fv, some tv =>
          match semverDiffFn (cleanVersionPref fv) (cleanVersionPref tv) with
          | some SemverDelta.premajor => some SemverBucket.prerelease
          | some SemverDelta.preminor => some SemverBucket.prerelease
          | some SemverDelta.prepatch => some SemverBucket.prerelease
          | some SemverDelta.major => some SemverBucket.major
          | some SemverDelta.minor => some SemverBucket.minor
          | some SemverDelta.patch => some SemverBucket.patch
          | some SemverDelta.prerelease => some SemverBucket.prerelease
          | none => none
        | _, _ => none
      else none
    some { name := name, sect := sect, fromV := fromVersion, toV := toVersion,
           type := type, semverDiff := semverDiffType }

/-- The sort comparator of lines 189-194: by section index, then by
name (byte order standing in for localeCompare, see strLe). -/
def depChangeLe (a b : DependencyChange) : Bool :=
  if sectionIndex a.sect = sectionIndex b.sect then strLe a.name b.name
  else decide (sectionIndex a.sect < sectionIndex b.sect)

/-- Model of compareDependencies (compare utilities, lines 124-197),
parameterized by the external semver diff function.  The JS Set union
of both key lists keeps first-occurrence order, as eraseDups does. -/
def compareDependencies (semverDiffFn : Str → Str → Option SemverDelta)
    (fromPkg toPkg : Option PkgManifest) : List DependencyChange :=
  let changes :=
    ([DepSection.dependencies, DepSection.devDependencies,
      DepSection.peerDependencies, DepSection.optionalDependencies].map
      (fun sect =>
        let fromDeps := sectionOf fromPkg sect
        let toDeps := sectionOf toPkg sect
        let allNames := (fromDeps.map Prod.fst ++ toDeps.map Prod.fst).eraseDups
        allNames.filterMap (depChangeFor semverDiffFn sect fromDeps toDeps))).flatten
  changes.mergeSort depChangeLe

/-- C7: the dependency comparator never emits a change whose from and
to versions are equal (including both absent), and every change it
classifies as updated has both versions present. -/
theorem C7_dependency_comparator_never_equal :
    ∀ (semverDiffFn : Str → Str → Option SemverDelta)
      (fromPkg toPkg : Option PkgManifest) (ch : DependencyChange),
      ch ∈ compareDependencies semverDiffFn fromPkg toPkg →
      ch.fromV ≠ ch.toV ∧
      (ch.type = DepKind.updated → ch.fromV ≠ none ∧ ch.toV ≠ none) := by
  intro fn fromPkg toPkg ch hmem
  rw [compareDependencies] at hmem
  rw [(List.mergeSort_perm _ depChangeLe).mem_iff] at hmem
  rw [List.mem_flatten] at hmem
  obtain ⟨l, hl, hchl⟩ := hmem
  rw [List.mem_map] at hl
  obtain ⟨sect, _, rfl⟩ := hl
  rw [List.mem_filterMap] at hchl
  obtain ⟨name, _, hsome⟩ := hchl
  rw [depChangeFor] at hsome
  by_cases heq : (sectionOf fromPkg sect).lookup name = (sectionOf toPkg sect).lookup name
  · rw [if_pos heq] at hsome
    cases hsome
  · rw [if_neg heq] at hsome
    injection hsome with hsome
    subst hsome
    refine ⟨heq, fun hupd => ?_⟩
    simp only [] at hupd
    by_cases hf : truthyStr ((sectionOf fromPkg sect).lookup name) = false
    · rw [if_pos hf] at hupd
      cases hupd
    · by_cases ht : truthyStr ((sectionOf toPkg sect).lookup name) = false
      · rw [if_neg hf, if_pos ht] at hupd
        cases hupd
      · constructor
        · intro hc
          have hc' : (sectionOf fromPkg sect).lookup name = none := hc
          rw [hc'] at hf
          exact hf rfl
        · intro hc
          have hc' : (sectionOf toPkg sect).lookup name = none := hc
          rw [hc'] at ht
          exact ht rfl

/-- Witness for C7: a one-package update from version 1 to version 2 in
dependencies, with the semver diff function returning nothing. -/
theorem C7_witness :
    ({ name := ['a'], sect := DepSection.dependencies, fromV := some ['1'],
       toV := some ['2'], type := DepKind.updated, semverDiff := none } :
        DependencyChange).fromV
      ≠ ({ name := ['a'], sect := DepSection.dependencies, fromV := some ['1'],
           toV := some ['2'], type := DepKind.updated, semverDiff := none } :
            DependencyChange).toV :=
  (C7_dependency_comparator_never_equal (fun _ _ => none)
    (some { dependencies := [(['a'], ['1'])], devDependencies := [],
            peerDependencies := [], optionalDependencies := [] })
    (some { dependencies := [(['a'], ['2'])], devDependencies := [],
            peerDependencies := [], optionalDependencies := [] })
    { name := ['a'], sect := DepSection.dependencies, fromV := some ['1'],
      toV := some ['2'], type := DepKind.updated, semverDiff := none }
    ((List.mergeSort_perm _ depChangeLe).mem_iff.mpr (by decide))).1
